import Mathlib

/-!
Verification development for the org document core of src/org_mcp/server.py:
the heading parser (extract_headings), the heading locator (read_heading),
the heading mutator (modify_heading) and the scheduled-item extractor
(extract_scheduled_items).

Text is modelled as List Char. Python str.splitlines is modelled for the
newline character as separator (documents over the plain newline separator),
and the ASCII part of the whitespace and digit character classes of the
regular expressions is modelled; these are the separators and classes the
code itself emits and the spec describes.
-/

/-- ASCII whitespace as matched by a backslash-s class of the re module. -/
def pySpace (c : Char) : Bool :=
  c == ' ' || c == '\t' || c == '\n' || c == '\r' || c == '\x0b' || c == '\x0c'

/-- Python str.splitlines for the newline separator: pieces carry no
terminator, a trailing separator produces no extra empty piece, the empty
text gives no pieces. -/
def splitlines : List Char → List (List Char)
  | [] => []
  | c :: t =>
    if c = '\n' then [] :: splitlines t
    else
      match splitlines t with
      | [] => [[c]]
      | l :: ls => (c :: l) :: ls

/-- Python newline-join of a list of pieces, as in the join calls of
extract_headings and modify_heading. -/
def joinNl : List (List Char) → List Char
  | [] => []
  | [l] => l
  | l :: ls => l ++ '\n' :: joinNl ls

/-- Full split of a text on the newline separator, keeping every piece
(including a final empty one): the exact inverse of joinNl, used to flatten
a replacement heading line that itself carries separators. -/
def splitNl : List Char → List (List Char)
  | [] => [[]]
  | c :: t =>
    if c = '\n' then [] :: splitNl t
    else
      match splitNl t with
      | [] => [[c]]
      | l :: ls => (c :: l) :: ls

/-- The heading record built by extract_headings. -/
structure Heading where
  level : Nat
  title : List Char
  raw : List Char
  todo_state : Option (List Char)
  content : List Char
deriving DecidableEq

/-- Does a list start with a whitespace character. -/
def startsWs : List Char → Bool
  | [] => false
  | c :: _ => pySpace c

/-- The heading-line regular expression of server.py, anchored star-run then
whitespace-run then rest: returns the star group and the free-text group.
The star run and the whitespace run are maximal, as the greedy match
produces on a line. -/
def headingMatch (line : List Char) : Option (List Char × List Char) :=
  let stars := line.takeWhile (fun c => c == '*')
  let rest := line.dropWhile (fun c => c == '*')
  if stars.isEmpty then none
  else if (rest.takeWhile pySpace).isEmpty then none
  else some (stars, rest.dropWhile pySpace)

/-- The todo-state regular expression of extract_headings: a literal token
TODO, DONE or IN-PROGRESS, at least one whitespace character, then the rest;
returns the token (when matched) and the remaining title. -/
def todoSplit (t : List Char) : Option (List Char) × List Char :=
  if ("TODO").data.isPrefixOf t && startsWs (t.drop 4) then
    (some ("TODO").data, (t.drop 4).dropWhile pySpace)
  else if ("DONE").data.isPrefixOf t && startsWs (t.drop 4) then
    (some ("DONE").data, (t.drop 4).dropWhile pySpace)
  else if ("IN-PROGRESS").data.isPrefixOf t && startsWs (t.drop 11) then
    (some ("IN-PROGRESS").data, (t.drop 11).dropWhile pySpace)
  else (none, t)

/-- Closing the currently open heading: its accumulated content lines are
joined with newlines, as extract_headings does. -/
def closeH (h : Heading) (buf : List (List Char)) : Heading :=
  { h with content := joinNl buf }

/-- The single-pass scan of extract_headings: the state is the currently
open heading together with its accumulated content buffer. -/
def extractLoop : List (List Char) → Option (Heading × List (List Char)) → List Heading
  | [], none => []
  | [], some (h, buf) => [closeH h buf]
  | l :: ls, st =>
    match headingMatch l with
    | some (stars, g2) =>
      let ts := todoSplit g2
      let nh : Heading := ⟨stars.length, ts.2, l, ts.1, []⟩
      match st with
      | none => extractLoop ls (some (nh, []))
      | some (h, buf) => closeH h buf :: extractLoop ls (some (nh, []))
    | none =>
      match st with
      | none => extractLoop ls none
      | some (h, buf) => extractLoop ls (some (h, buf ++ [l]))

/-- extract_headings of server.py. -/
def extract_headings (content : List Char) : List Heading :=
  extractLoop (splitlines content) none

/-- The locator loop of read_heading and modify_heading: first heading whose
title equals the requested title. -/
def find_heading (t : List Char) : List Heading → Option Heading
  | [] => none
  | h :: hs => if h.title = t then some h else find_heading t hs

/-- The block-start test of modify_heading on one line: the line matches the
heading grammar, its free text ends with the requested title, and the free
text equals the title or starts with the literal TODO-space or DONE-space. -/
def matchesModTitle (t : List Char) (line : List Char) : Bool :=
  match headingMatch line with
  | none => false
  | some (_, g2) =>
    t.isSuffixOf g2 &&
      (g2 == t || ("TODO ").data.isPrefixOf g2 || ("DONE ").data.isPrefixOf g2)

/-- Modelled from the spec words of section 4.3 step 1, for comparison with
matchesModTitle: the free text equals the title exactly, or equals it after
stripping a leading TODO-space or DONE-space prefix. -/
def specMatchesModTitle (t : List Char) (line : List Char) : Bool :=
  match headingMatch line with
  | none => false
  | some (_, g2) =>
    g2 == t || (("TODO ").data.isPrefixOf g2 && g2.drop 5 == t)
      || (("DONE ").data.isPrefixOf g2 && g2.drop 5 == t)

/-- Index of the first line satisfying a test, as the scan-with-break loops
of modify_heading produce. -/
def findLineIdx (p : List Char → Bool) : List (List Char) → Option Nat
  | [] => none
  | l :: ls => if p l then some 0 else (findLineIdx p ls).map (· + 1)

/-- The block-end search of modify_heading: the first heading line strictly
after the block-start line, or the number of lines when there is none. -/
def findBlockEnd (lines : List (List Char)) (start : Nat) : Nat :=
  match findLineIdx (fun l => (headingMatch l).isSome) (lines.drop (start + 1)) with
  | some j => start + 1 + j
  | none => lines.length

/-- The star run of a given level. -/
def starsOf (n : Nat) : List Char := List.replicate n '*'

/-- The replacement heading line modify_heading builds: the target level's
stars and a space, then the effective todo state (the override when given,
else the target's parsed state; an empty token is falsy in Python and is
skipped) followed by a space, then the effective title (the override when
given, else the target's parsed title). -/
def buildHeadingLine (target : Heading) (nTd nT : Option (List Char)) : List Char :=
  let todoEff := match nTd with
    | some s => some s
    | none => target.todo_state
  let todoPart := match todoEff with
    | some tok => if tok = [] then [] else tok ++ [' ']
    | none => []
  let titleEff := match nT with
    | some s => s
    | none => target.title
  starsOf target.level ++ ' ' :: (todoPart ++ titleEff)

/-- The effective content text of modify_heading: the override when given,
else the target heading's parsed content. -/
def effContent (target : Heading) (nC : Option (List Char)) : List Char :=
  match nC with
  | some s => s
  | none => target.content

/-- modify_heading of server.py on the document text, up to the final join:
locate the target heading among the parsed headings by exact title, rescan
the raw lines for the block-start line, find the block end, and splice
prefix, replacement heading line, re-split replacement content and suffix.
Failure of either lookup is the explicit not-found result. -/
def modify_heading_lines (content t : List Char)
    (nT nC nTd : Option (List Char)) : Option (List (List Char)) :=
  match find_heading t (extract_headings content) with
  | none => none
  | some target =>
    let lines := splitlines content
    match findLineIdx (matchesModTitle t) lines with
    | none => none
    | some bs =>
      let be := findBlockEnd lines bs
      some (lines.take bs ++ [buildHeadingLine target nTd nT]
        ++ splitlines (effContent target nC) ++ lines.drop be)

/-- The text modify_heading writes back: the new lines joined with single
newlines and no terminating separator. -/
def modify_heading (content t : List Char)
    (nT nC nTd : Option (List Char)) : Option (List Char) :=
  (modify_heading_lines content t nT nC nTd).map joinNl

/-- The failure string read_org_file produces on a failing read. -/
def read_error_string (msg : List Char) : List Char :=
  ("Error reading file: ").data ++ msg

/-- read_file_headings of server.py on the string read_org_file returned:
the guard inspects the Error-colon prefix and otherwise parses the text. -/
def read_file_headings (content : List Char) : Except (List Char) (List Heading) :=
  if ("Error:").data.isPrefixOf content then Except.error content
  else Except.ok (extract_headings content)

/-- A digit as matched by a backslash-d class of the re module (ASCII). -/
def pyDigit (c : Char) : Bool := c.isDigit

/-- The four-two-two digit date group of the timestamp patterns. -/
def dateShape (l : List Char) : Bool :=
  match l with
  | [a, b, c, d, e, f, g, h, i, j] =>
    pyDigit a && pyDigit b && pyDigit c && pyDigit d && e == '-' &&
      pyDigit f && pyDigit g && h == '-' && pyDigit i && pyDigit j
  | _ => false

/-- Match of one timestamp pattern anchored at the start of the text: the
keyword, a maximal whitespace run, an opening angle bracket, the date group,
then either the closing bracket at once, or a space, a run free of closing
brackets and a closing bracket further on. Returns the date group. -/
def matchMarkerAt (kw : List Char) (s : List Char) : Option (List Char) :=
  if kw.isPrefixOf s then
    match (s.drop kw.length).dropWhile pySpace with
    | '<' :: r2 =>
      let date := r2.take 10
      if dateShape date then
        match r2.drop 10 with
        | '>' :: _ => some date
        | ' ' :: rest => if rest.any (fun c => c == '>') then some date else none
        | _ => none
      else none
    | _ => none
  else none

/-- Leftmost search of a timestamp pattern, as re.search produces. -/
def searchMarker (kw : List Char) : List Char → Option (List Char)
  | [] => none
  | c :: rest =>
    match matchMarkerAt kw (c :: rest) with
    | some d => some d
    | none => searchMarker kw rest

/-- The scheduled-item record of extract_scheduled_items. -/
structure ScheduledItem where
  type : List Char
  date : List Char
  title : List Char
  todo_state : Option (List Char)
  level : Nat
deriving DecidableEq

/-- The two searches extract_scheduled_items runs on one heading's content,
appending the scheduled item before the deadline item. -/
def headingItems (h : Heading) : List ScheduledItem :=
  (match searchMarker ("SCHEDULED:").data h.content with
   | some d => [⟨("scheduled").data, d, h.title, h.todo_state, h.level⟩]
   | none => []) ++
  (match searchMarker ("DEADLINE:").data h.content with
   | some d => [⟨("deadline").data, d, h.title, h.todo_state, h.level⟩]
   | none => [])

/-- The per-heading accumulation loop of extract_scheduled_items. -/
def itemsLoop : List Heading → List ScheduledItem
  | [] => []
  | h :: t => headingItems h ++ itemsLoop t

/-- extract_scheduled_items of server.py. -/
def extract_scheduled_items (content : List Char) : List ScheduledItem :=
  itemsLoop (extract_headings content)

/-- The text block one parsed heading stands for: its raw line, and its
content after a separating newline when the content is nonempty. -/
def blockText (h : Heading) : List Char :=
  if h.content = [] then h.raw else h.raw ++ '\n' :: h.content

/-- Reconstruction of a document from parsed headings: the blocks joined
with the separating newlines. -/
def reconstruct (hs : List Heading) : List Char :=
  joinNl (hs.map blockText)

/-- Last character of a text. -/
def lastChar? : List Char → Option Char
  | [] => none
  | [c] => some c
  | _ :: t => lastChar? t

/-- Is the next line a block boundary: end of the document or a heading
line. -/
def nextIsBoundary : List (List Char) → Bool
  | [] => true
  | r :: _ => (headingMatch r).isSome

/-- No heading line is immediately followed by exactly one empty line and
then a block boundary. On such documents the parser's newline-join of the
content buffer is injective, which the round-trip needs. -/
def okB : List (List Char) → Bool
  | [] => true
  | [_] => true
  | l :: m :: rest =>
    !((headingMatch l).isSome && m.isEmpty && nextIsBoundary rest) && okB (m :: rest)

/-- All pieces are free of the separator. -/
def NlFree (ls : List (List Char)) : Prop := ∀ l ∈ ls, ('\n' : Char) ∉ l

/-- The last character ignores a leading character when more follow. -/
theorem lastChar?_cons_cons (c d : Char) (t : List Char) :
    lastChar? (c :: d :: t) = lastChar? (d :: t) := rfl

/-- Join of a cons with a nonempty tail separates with one newline. -/
theorem joinNl_cons (l : List Char) (ls : List (List Char)) (h : ls ≠ []) :
    joinNl (l :: ls) = l ++ '\n' :: joinNl ls := by
  cases ls with
  | nil => exact absurd rfl h
  | cons a t => rfl

/-- Join distributes over append of nonempty lists of pieces. -/
theorem joinNl_append (A B : List (List Char)) (hA : A ≠ []) (hB : B ≠ []) :
    joinNl (A ++ B) = joinNl A ++ '\n' :: joinNl B := by
  induction A with
  | nil => exact absurd rfl hA
  | cons a t ih =>
    cases t with
    | nil =>
      simp only [List.singleton_append]
      rw [joinNl_cons a B hB, joinNl]
    | cons b t' =>
      rw [List.cons_append, joinNl_cons a ((b :: t') ++ B) (by simp),
        joinNl_cons a (b :: t') (by simp), ih (by simp)]
      simp

/-- Splitting a nonempty text yields at least one piece. -/
theorem splitlines_ne_nil (s : List Char) (h : s ≠ []) : splitlines s ≠ [] := by
  cases s with
  | nil => exact absurd rfl h
  | cons c t =>
    rw [splitlines]
    by_cases hc : c = '\n'
    · simp [hc]
    · simp only [if_neg hc]
      cases splitlines t <;> simp

/-- Pieces of a split carry no separator. -/
theorem splitlines_nlFree (s : List Char) : NlFree (splitlines s) := by
  induction s with
  | nil => intro l hl; simp [splitlines] at hl
  | cons c t ih =>
    intro l hl
    by_cases hc : c = '\n'
    · rw [splitlines, if_pos hc] at hl
      rcases List.mem_cons.mp hl with h1 | h1
      · subst h1; simp
      · exact ih l h1
    · rcases hsp : splitlines t with _ | ⟨l0, ls0⟩
      · rw [splitlines, if_neg hc, hsp] at hl
        simp only [List.mem_singleton] at hl
        subst hl
        intro hmem
        simp only [List.mem_singleton] at hmem
        exact hc hmem.symm
      · rw [splitlines, if_neg hc, hsp] at hl
        rcases List.mem_cons.mp hl with h1 | h1
        · subst h1
          intro hmem
          rcases List.mem_cons.mp hmem with h2 | h2
          · exact hc h2.symm
          · exact ih l0 (by rw [hsp]; exact List.mem_cons_self l0 ls0) h2
        · exact ih l (by rw [hsp]; exact List.mem_cons_of_mem l0 h1)

/-- On a text not ending with the separator, split then join is identity. -/
theorem joinNl_splitlines (s : List Char) (h : lastChar? s ≠ some '\n') :
    joinNl (splitlines s) = s := by
  induction s with
  | nil => rfl
  | cons c t ih =>
    rw [splitlines]
    by_cases hc : c = '\n'
    · rw [if_pos hc]
      cases t with
      | nil => subst hc; exact absurd rfl h
      | cons d t' =>
        have hlast : lastChar? (d :: t') ≠ some '\n' := by
          rw [lastChar?_cons_cons] at h; exact h
        have hn : splitlines (d :: t') ≠ [] := splitlines_ne_nil (d :: t') (List.cons_ne_nil d t')
        rw [joinNl_cons _ _ hn, ih hlast]
        simp [hc]
    · rw [if_neg hc]
      cases t with
      | nil => rfl
      | cons d t' =>
        have hlast : lastChar? (d :: t') ≠ some '\n' := by
          rw [lastChar?_cons_cons] at h; exact h
        have hn : splitlines (d :: t') ≠ [] := splitlines_ne_nil (d :: t') (List.cons_ne_nil d t')
        rcases hsp : splitlines (d :: t') with _ | ⟨l0, ls0⟩
        · exact absurd hsp hn
        · have hj : joinNl (l0 :: ls0) = d :: t' := by rw [← hsp]; exact ih hlast
          cases ls0 with
          | nil => rw [joinNl]; rw [joinNl] at hj; rw [hj]
          | cons l1 ls1 =>
            rw [joinNl_cons _ _ (by simp)]
            rw [joinNl_cons _ _ (by simp)] at hj
            simp only [List.cons_append, List.append_assoc] at hj ⊢
            rw [hj]

/-- On a text ending with the separator, the text is the join of its split
followed by one separator. -/
theorem splitlines_of_last_nl (s : List Char) (h : lastChar? s = some '\n') :
    s = joinNl (splitlines s) ++ ['\n'] := by
  induction s with
  | nil => simp [lastChar?] at h
  | cons c t ih =>
    rw [splitlines]
    by_cases hc : c = '\n'
    · rw [if_pos hc]
      cases t with
      | nil => subst hc; rfl
      | cons d t' =>
        have hlast : lastChar? (d :: t') = some '\n' := by
          rw [lastChar?_cons_cons] at h; exact h
        have hn : splitlines (d :: t') ≠ [] := splitlines_ne_nil (d :: t') (List.cons_ne_nil d t')
        rw [joinNl_cons _ _ hn]
        subst hc
        simp only [List.nil_append, List.cons_append]
        rw [← ih hlast]
    · rw [if_neg hc]
      cases t with
      | nil =>
        rw [lastChar?] at h
        exact absurd (Option.some_injective _ h) hc
      | cons d t' =>
        have hlast : lastChar? (d :: t') = some '\n' := by
          rw [lastChar?_cons_cons] at h; exact h
        have hn : splitlines (d :: t') ≠ [] := splitlines_ne_nil (d :: t') (List.cons_ne_nil d t')
        rcases hsp : splitlines (d :: t') with _ | ⟨l0, ls0⟩
        · exact absurd hsp hn
        · have hj : d :: t' = joinNl (l0 :: ls0) ++ ['\n'] := by
            rw [← hsp]; exact ih hlast
          cases ls0 with
          | nil =>
            rw [joinNl]; rw [joinNl] at hj
            simp only [List.cons_append]
            rw [← hj]
          | cons l1 ls1 =>
            rw [joinNl_cons _ _ (by simp)]
            rw [joinNl_cons _ _ (by simp)] at hj
            simp only [List.cons_append, List.append_assoc] at hj ⊢
            rw [← hj]

/-- A match of the heading grammar only succeeds on a nonempty line. -/
theorem headingMatch_ne_nil (l : List Char) (h : (headingMatch l).isSome = true) :
    l ≠ [] := by
  intro hl; subst hl
  simp [headingMatch] at h

/-- A nonempty join of two or more pieces. -/
theorem joinNl_cons_cons_ne_nil (x y : List Char) (t : List (List Char)) :
    joinNl (x :: y :: t) ≠ [] := by
  rw [joinNl_cons x (y :: t) (List.cons_ne_nil y t)]
  cases x <;> simp

/-- The boundary condition is closed under dropping the first line. -/
theorem okB_tail (x : List Char) (xs : List (List Char)) (h : okB (x :: xs) = true) :
    okB xs = true := by
  cases xs with
  | nil => rfl
  | cons m rest =>
    rw [okB] at h
    exact ((Bool.and_eq_true _ _).mp h).2

/-- The boundary condition is closed under dropping a prefix. -/
theorem okB_suffix (a b : List (List Char)) (h : okB (a ++ b) = true) :
    okB b = true := by
  induction a with
  | nil => exact h
  | cons x xs ih => exact ih (okB_tail x (xs ++ b) h)

/-- The scan with an open heading always emits at least that heading. -/
theorem extractLoop_ne_nil (ls : List (List Char)) :
    ∀ h buf, extractLoop ls (some (h, buf)) ≠ [] := by
  induction ls with
  | nil => intro h buf; simp [extractLoop]
  | cons l ls ih =>
    intro h buf
    rcases hm : headingMatch l with _ | ⟨stars, g2⟩
    · rw [extractLoop, hm]
      exact ih h (buf ++ [l])
    · rw [extractLoop, hm]
      simp

/-- Closing a heading on a buffer other than the single empty line gives a
block equal to the join of the raw line and the buffer. -/
theorem blockText_closeH (h : Heading) (buf : List (List Char)) (hbuf : buf ≠ [[]]) :
    blockText (closeH h buf) = joinNl (h.raw :: buf) := by
  cases buf with
  | nil => simp [blockText, closeH, joinNl]
  | cons x bs =>
    cases bs with
    | nil =>
      have hx : x ≠ [] := by
        intro he; subst he; exact hbuf rfl
      simp [blockText, closeH, joinNl, hx]
    | cons y t =>
      have hne := joinNl_cons_cons_ne_nil x y t
      simp only [blockText, closeH]
      rw [if_neg hne, joinNl_cons h.raw (x :: y :: t) (List.cons_ne_nil x (y :: t))]

/-- Reconstruction of a cons with a nonempty tail. -/
theorem reconstruct_cons (x : Heading) (rest : List Heading) (h : rest ≠ []) :
    reconstruct (x :: rest) = blockText x ++ '\n' :: reconstruct rest := by
  unfold reconstruct
  rw [List.map_cons, joinNl_cons _ _ (fun hm => h (List.map_eq_nil_iff.mp hm))]

/-- Invariant of the parser scan: with an open heading whose raw line
matches the grammar, and the boundary condition on the remaining document,
the reconstruction of the emitted headings is the join of the raw line, the
buffered lines and the remaining lines. -/
theorem extract_invariant (ls : List (List Char)) :
    ∀ (h : Heading) (buf : List (List Char)),
    (headingMatch h.raw).isSome = true →
    okB (h.raw :: (buf ++ ls)) = true →
    reconstruct (extractLoop ls (some (h, buf))) = joinNl (h.raw :: (buf ++ ls)) := by
  induction ls with
  | nil =>
    intro h buf hraw hok
    have hbuf : buf ≠ [[]] := by
      intro hb; subst hb
      simp [okB, nextIsBoundary, hraw] at hok
    rw [extractLoop]
    have : reconstruct [closeH h buf] = blockText (closeH h buf) := by
      simp [reconstruct, joinNl]
    rw [this, blockText_closeH h buf hbuf, List.append_nil]
  | cons l ls ih =>
    intro h buf hraw hok
    rcases hm : headingMatch l with _ | ⟨stars, g2⟩
    · rw [extractLoop, hm]
      have hok' : okB (h.raw :: ((buf ++ [l]) ++ ls)) = true := by
        rw [List.append_assoc]
        simpa using hok
      have hres := ih h (buf ++ [l]) hraw hok'
      rw [hres, List.append_assoc]
      simp
    · rw [extractLoop, hm]
      have hbuf : buf ≠ [[]] := by
        intro hb; subst hb
        simp [okB, nextIsBoundary, hraw, hm] at hok
      have hok' : okB (l :: ([] ++ ls)) = true := by
        have : (h.raw :: (buf ++ l :: ls)) = (h.raw :: buf) ++ (l :: ls) := by simp
        rw [this] at hok
        simpa using okB_suffix (h.raw :: buf) (l :: ls) hok
      have hraw' : (headingMatch l).isSome = true := by rw [hm]; rfl
      have hne := extractLoop_ne_nil ls ⟨stars.length, (todoSplit g2).2, l, (todoSplit g2).1, []⟩ []
      rw [reconstruct_cons _ _ hne]
      have hIH := ih ⟨stars.length, (todoSplit g2).2, l, (todoSplit g2).1, []⟩ [] hraw' hok'
      rw [blockText_closeH h buf hbuf]
      simp only at hIH
      rw [hIH]
      have hA : (h.raw :: buf) ≠ [] := List.cons_ne_nil _ _
      have hB : (l :: ls) ≠ [] := List.cons_ne_nil _ _
      rw [show (h.raw :: (buf ++ l :: ls)) = (h.raw :: buf) ++ (l :: ls) by simp,
        joinNl_append _ _ hA hB]
      simp

/-- Claim C1, amended. For a document whose first line is a heading line
(no text before the first heading), which does not end with a line
separator, and in which no heading line is immediately followed by exactly
one empty line and then a heading line or the end of the document,
concatenating each parsed heading's raw line followed by its content with
the separating line breaks reproduces the document byte-for-byte. -/
theorem c1_round_trip (content l : List Char) (rest : List (List Char))
    (hsplit : splitlines content = l :: rest)
    (hhead : (headingMatch l).isSome = true)
    (hnl : lastChar? content ≠ some '\n')
    (hok : okB (splitlines content) = true) :
    reconstruct (extract_headings content) = content := by
  have hjoin : joinNl (splitlines content) = content := joinNl_splitlines content hnl
  rcases hm : headingMatch l with _ | ⟨stars, g2⟩
  · rw [hm] at hhead; simp at hhead
  · unfold extract_headings
    rw [hsplit, extractLoop, hm]
    have hok' : okB (l :: ([] ++ rest)) = true := by
      rw [hsplit] at hok
      simpa using hok
    have hinv := extract_invariant rest
      ⟨stars.length, (todoSplit g2).2, l, (todoSplit g2).1, []⟩ []
      (by simpa using hhead) (by simpa using hok')
    simp only at hinv
    rw [hinv]
    simp only [List.nil_append]
    rw [← hsplit, hjoin]

/-- Claim C1, counterexample to the claim as stated: the document of one
heading line and a final line separator, with no text before the heading,
is not reproduced; indeed the parser output is identical to the parse of
the distinct document lacking the final separator, so no reconstruction
from the parser output can reproduce both. -/
theorem c1_counterexample :
    reconstruct (extract_headings (("* x\n").data)) ≠ ("* x\n").data ∧
    splitlines (("* x\n").data) = [("* x").data] ∧
    (headingMatch (("* x").data)).isSome = true ∧
    extract_headings (("* x\n").data) = extract_headings (("* x").data) ∧
    ("* x\n").data ≠ ("* x").data := by
  refine ⟨by decide, by decide, by decide, by decide, by decide⟩

/-- Witness for the amended claim C1 at a concrete document. -/
theorem c1_round_trip_witness :
    splitlines (("* a\nb\n* c").data) = ("* a").data :: [("b").data, ("* c").data] ∧
    (headingMatch (("* a").data)).isSome = true ∧
    lastChar? (("* a\nb\n* c").data) ≠ some '\n' ∧
    okB (splitlines (("* a\nb\n* c").data)) = true ∧
    reconstruct (extract_headings (("* a\nb\n* c").data)) = ("* a\nb\n* c").data :=
  ⟨by decide, by decide, by decide, by decide,
    c1_round_trip (("* a\nb\n* c").data) (("* a").data) [("b").data, ("* c").data]
      (by decide) (by decide) (by decide) (by decide)⟩

/-- Specification of the first-match line scan: a found index carries a
satisfying line with all earlier lines failing; no index means no line
satisfies. -/
theorem findLineIdx_spec (p : List Char → Bool) (ls : List (List Char)) :
    (∀ i, findLineIdx p ls = some i →
      ∃ l, ls[i]? = some l ∧ p l = true ∧
        ∀ j, j < i → ∀ l', ls[j]? = some l' → p l' = false)
    ∧ (findLineIdx p ls = none ↔ ∀ l ∈ ls, p l = false) := by
  induction ls with
  | nil =>
    constructor
    · intro i hi; simp [findLineIdx] at hi
    · simp [findLineIdx]
  | cons x xs ih =>
    by_cases hx : p x = true
    · constructor
      · intro i hi
        rw [findLineIdx, if_pos hx] at hi
        cases hi
        exact ⟨x, by simp, hx, fun j hj => absurd hj (Nat.not_lt_zero j)⟩
      · rw [findLineIdx, if_pos hx]
        constructor
        · intro hf; exact absurd hf (by simp)
        · intro hall
          exact absurd hx (by simp [hall x (List.mem_cons_self x xs)])
    · have hxf : p x = false := Bool.eq_false_iff.mpr hx
      constructor
      · intro i hi
        rw [findLineIdx, if_neg hx] at hi
        rcases hmap : findLineIdx p xs with _ | i0
        · rw [hmap] at hi; simp at hi
        · rw [hmap] at hi
          simp only [Option.map_some'] at hi
          cases hi
          obtain ⟨l, hl, hpl, hprev⟩ := ih.1 i0 hmap
          refine ⟨l, by simpa using hl, hpl, ?_⟩
          intro j hj l' hl'
          cases j with
          | zero =>
            simp only [List.getElem?_cons_zero] at hl'
            cases hl'
            exact hxf
          | succ k =>
            rw [List.getElem?_cons_succ] at hl'
            exact hprev k (Nat.lt_of_succ_lt_succ hj) l' hl'
      · rw [findLineIdx, if_neg hx]
        constructor
        · intro hf l hl
          rcases List.mem_cons.mp hl with h1 | h1
          · subst h1; exact hxf
          · have hnone : findLineIdx p xs = none := by
              rcases hmap : findLineIdx p xs with _ | i0
              · rfl
              · rw [hmap] at hf; simp at hf
            exact ih.2.mp hnone l h1
        · intro hall
          have hnone : findLineIdx p xs = none :=
            ih.2.mpr (fun l hl => hall l (List.mem_cons_of_mem x hl))
          rw [hnone]; rfl

/-- Dropping the length of the first part of an append leaves the second. -/
theorem drop_len_append (l1 l2 : List Char) (n : Nat) (h : n = l1.length) :
    (l1 ++ l2).drop n = l2 := by
  subst h; exact List.drop_left l1 l2

/-- A prefix check fails at once on differing head characters. -/
theorem isPrefixOf_cons_false (a b : Char) (l1 l2 : List Char) (h : (a == b) = false) :
    (a :: l1).isPrefixOf (b :: l2) = false := by
  simp only [List.isPrefixOf, h, Bool.false_and]

/-- Dropping while a test holds everywhere empties the list. -/
theorem dropWhile_eq_nil_of_all (p : Char → Bool) (l : List Char)
    (h : ∀ c ∈ l, p c = true) : l.dropWhile p = [] := by
  induction l with
  | nil => rfl
  | cons c t ih =>
    rw [List.dropWhile_cons, if_pos (h c (List.mem_cons_self c t))]
    exact ih (fun d hd => h d (List.mem_cons_of_mem c hd))

/-- A nonempty separator-free text splits into itself as the only line. -/
theorem splitlines_single (l : List Char) (hne : l ≠ []) (hnl : ('\n' : Char) ∉ l) :
    splitlines l = [l] := by
  induction l with
  | nil => exact absurd rfl hne
  | cons c t ih =>
    have hc : ¬ c = '\n' := fun hcc => hnl (hcc ▸ List.mem_cons_self c t)
    cases t with
    | nil => rw [splitlines, if_neg hc]; rfl
    | cons d t' =>
      have hrec := ih (List.cons_ne_nil d t') (fun hm => hnl (List.mem_cons_of_mem c hm))
      rw [splitlines, if_neg hc, hrec]

/-- The todo-state split on a token followed only by whitespace yields the
token and the empty title. -/
theorem todoSplit_tok_ws (tok ws2 : List Char)
    (htok : tok = ("TODO").data ∨ tok = ("DONE").data ∨ tok = ("IN-PROGRESS").data)
    (hne : ws2 ≠ []) (hall : ∀ c ∈ ws2, pySpace c = true) :
    todoSplit (tok ++ ws2) = (some tok, []) := by
  have hws : startsWs ws2 = true := by
    cases ws2 with
    | nil => exact absurd rfl hne
    | cons c r => exact hall c (List.mem_cons_self c r)
  have hdw : ws2.dropWhile pySpace = [] := dropWhile_eq_nil_of_all pySpace ws2 hall
  rcases htok with ht | ht | ht <;> subst ht
  · have hpre : ("TODO").data.isPrefixOf (("TODO").data ++ ws2) = true :=
      List.isPrefixOf_iff_prefix.mpr (List.prefix_append _ _)
    have hdrop : ((("TODO").data ++ ws2).drop 4) = ws2 := drop_len_append _ _ 4 (by decide)
    rw [todoSplit, hdrop, hpre, hws]
    simp [hdw]
  · have hT : ("TODO").data.isPrefixOf (("DONE").data ++ ws2) = false := by
      have : ("DONE").data ++ ws2 = 'D' :: (("ONE").data ++ ws2) := rfl
      rw [this]
      exact isPrefixOf_cons_false 'T' 'D' _ _ (by decide)
    have hpre : ("DONE").data.isPrefixOf (("DONE").data ++ ws2) = true :=
      List.isPrefixOf_iff_prefix.mpr (List.prefix_append _ _)
    have hdrop : ((("DONE").data ++ ws2).drop 4) = ws2 := drop_len_append _ _ 4 (by decide)
    rw [todoSplit, hdrop, hT, hpre, hws]
    simp [hdw]
  · have hT : ("TODO").data.isPrefixOf (("IN-PROGRESS").data ++ ws2) = false := by
      have : ("IN-PROGRESS").data ++ ws2 = 'I' :: (("N-PROGRESS").data ++ ws2) := rfl
      rw [this]
      exact isPrefixOf_cons_false 'T' 'I' _ _ (by decide)
    have hD : ("DONE").data.isPrefixOf (("IN-PROGRESS").data ++ ws2) = false := by
      have : ("IN-PROGRESS").data ++ ws2 = 'I' :: (("N-PROGRESS").data ++ ws2) := rfl
      rw [this]
      exact isPrefixOf_cons_false 'D' 'I' _ _ (by decide)
    have hpre : ("IN-PROGRESS").data.isPrefixOf (("IN-PROGRESS").data ++ ws2) = true :=
      List.isPrefixOf_iff_prefix.mpr (List.prefix_append _ _)
    have hdrop : ((("IN-PROGRESS").data ++ ws2).drop 11) = ws2 := drop_len_append _ _ 11 (by decide)
    rw [todoSplit, hdrop, hT, hD, hpre, hws]
    simp [hdw]

/-- Claim C3, amended. The mutator's block-start scan selects the first
line matching the heading grammar whose free text ends with the requested
title and either equals the title or starts with the literal TODO-space or
DONE-space prefix (regardless of what follows that prefix); the scan
reports no line exactly when no line satisfies this test, and the mutator
returns its not-found failure exactly when the parsed-title lookup or the
line scan finds nothing. -/
theorem c3_block_start (t : List Char) :
    (∀ lines i, findLineIdx (matchesModTitle t) lines = some i →
      ∃ l, lines[i]? = some l ∧ matchesModTitle t l = true ∧
        ∀ j, j < i → ∀ l', lines[j]? = some l' → matchesModTitle t l' = false)
    ∧ (∀ lines, findLineIdx (matchesModTitle t) lines = none ↔
        ∀ l ∈ lines, matchesModTitle t l = false)
    ∧ (∀ content nT nC nTd, modify_heading_lines content t nT nC nTd = none ↔
        (find_heading t (extract_headings content) = none ∨
          findLineIdx (matchesModTitle t) (splitlines content) = none)) := by
  refine ⟨fun lines => (findLineIdx_spec (matchesModTitle t) lines).1,
    fun lines => (findLineIdx_spec (matchesModTitle t) lines).2, ?_⟩
  intro content nT nC nTd
  rw [modify_heading_lines]
  rcases hf : find_heading t (extract_headings content) with _ | target
  · simp
  · simp only
    rcases hi : findLineIdx (matchesModTitle t) (splitlines content) with _ | bs
    · simp
    · simp

/-- Claim C3, counterexample to the claim as stated: with requested title x
the scan selects line zero, whose free text (TODO ax) neither equals x nor
equals x after stripping its TODO prefix, although line one satisfies the
spec criterion; the full mutation then rewrites the wrong block. -/
theorem c3_counterexample :
    findLineIdx (matchesModTitle (("x").data)) [("* TODO ax").data, ("* x").data] = some 0 ∧
    specMatchesModTitle (("x").data) (("* TODO ax").data) = false ∧
    specMatchesModTitle (("x").data) (("* x").data) = true ∧
    modify_heading_lines (("* TODO ax\n* x").data) (("x").data) none none none =
      some [("* x").data, ("* x").data] :=
  ⟨by decide, by decide, by decide, by decide⟩

/-- Witness for the amended claim C3 at a concrete line list. -/
theorem c3_block_start_witness :
    ∃ l, ([("junk").data, ("* DONE t").data] : List (List Char))[1]? = some l ∧
      matchesModTitle (("t").data) l = true ∧
      ∀ j, j < 1 → ∀ l',
        ([("junk").data, ("* DONE t").data] : List (List Char))[j]? = some l' →
          matchesModTitle (("t").data) l' = false :=
  (c3_block_start (("t").data)).1 [("junk").data, ("* DONE t").data] 1 (by decide)

/-- Claim C4. The locator returns the first heading in document order whose
title equals the requested title byte-for-byte; with duplicate titles the
earliest occurrence wins, and it returns the explicit not-found value
exactly when no heading's title matches (it is a total function, so no
uncaught fault is possible). -/
theorem c4_locator (hs : List Heading) (t : List Char) :
    (∀ h : Heading, find_heading t hs = some h →
      h.title = t ∧ ∃ i : Nat, hs[i]? = some h ∧
        ∀ j : Nat, j < i → ∀ g : Heading, hs[j]? = some g → g.title ≠ t)
    ∧ (find_heading t hs = none ↔ ∀ h ∈ hs, h.title ≠ t) := by
  induction hs with
  | nil =>
    constructor
    · intro h hf; simp [find_heading] at hf
    · simp [find_heading]
  | cons x xs ih =>
    by_cases hx : x.title = t
    · constructor
      · intro h hf
        rw [find_heading, if_pos hx] at hf
        cases hf
        refine ⟨hx, 0, ?_, fun j hj => absurd hj (Nat.not_lt_zero j)⟩
        exact List.getElem?_cons_zero
      · rw [find_heading, if_pos hx]
        constructor
        · intro hf; exact absurd hf (by simp)
        · intro hall; exact absurd hx (hall x (List.mem_cons_self x xs))
    · constructor
      · intro h hf
        rw [find_heading, if_neg hx] at hf
        obtain ⟨ht, i, hi, hprev⟩ := ih.1 h hf
        refine ⟨ht, i + 1, ?_, ?_⟩
        · rw [List.getElem?_cons_succ]; exact hi
        · intro j hj g hg
          cases j with
          | zero =>
            simp only [List.getElem?_cons_zero] at hg
            cases hg
            exact hx
          | succ k =>
            rw [List.getElem?_cons_succ] at hg
            exact hprev k (Nat.lt_of_succ_lt_succ hj) g hg
      · rw [find_heading, if_neg hx]
        constructor
        · intro hf l hl
          rcases List.mem_cons.mp hl with h1 | h1
          · subst h1; exact hx
          · exact ih.2.mp hf l h1
        · intro hall
          exact ih.2.mpr (fun l hl => hall l (List.mem_cons_of_mem x hl))

/-- Witness for claim C4: with a duplicate title the locator returns the
earlier record and every earlier index fails the comparison. -/
theorem c4_locator_witness :
    (⟨1, ("t").data, ("* t").data, none, ("c").data⟩ : Heading).title = ("t").data ∧
    ∃ i : Nat, ([⟨2, ("x").data, ("** x").data, none, []⟩,
      ⟨1, ("t").data, ("* t").data, none, ("c").data⟩,
      ⟨3, ("t").data, ("*** t").data, none, []⟩] : List Heading)[i]? =
        some ⟨1, ("t").data, ("* t").data, none, ("c").data⟩ ∧
      ∀ j : Nat, j < i → ∀ g : Heading, ([⟨2, ("x").data, ("** x").data, none, []⟩,
        ⟨1, ("t").data, ("* t").data, none, ("c").data⟩,
        ⟨3, ("t").data, ("*** t").data, none, []⟩] : List Heading)[j]? = some g →
          g.title ≠ ("t").data :=
  (c4_locator _ _).1 _ (by decide)

/-- Claim C6. Parsing is total by construction; moreover lines before the
first heading line contribute nothing: a fully heading-free prefix can be
discarded without changing the parse, and a document with no heading line
at all parses to the empty sequence. -/
theorem c6_parse_total :
    (∀ pre ls, (∀ l ∈ pre, headingMatch l = none) →
      extractLoop (pre ++ ls) none = extractLoop ls none)
    ∧ (∀ s, (∀ l ∈ splitlines s, headingMatch l = none) → extract_headings s = []) := by
  have hskip : ∀ pre ls, (∀ l ∈ pre, headingMatch l = none) →
      extractLoop (pre ++ ls) none = extractLoop ls none := by
    intro pre
    induction pre with
    | nil => intro ls hpre; rfl
    | cons x xs ih =>
      intro ls hpre
      rw [List.cons_append, extractLoop, hpre x (List.mem_cons_self x xs)]
      exact ih ls (fun l hl => hpre l (List.mem_cons_of_mem x hl))
  refine ⟨hskip, ?_⟩
  intro s hs
  have h2 := hskip (splitlines s) [] hs
  rw [List.append_nil] at h2
  rw [extract_headings, h2]
  rfl

/-- Witness for claim C6 at a concrete prefix and document. -/
theorem c6_parse_total_witness :
    (∀ l ∈ [("junk").data, ("").data], headingMatch l = none) ∧
    extractLoop ([("junk").data, ("").data] ++ [("* t").data]) none =
      extractLoop [("* t").data] none ∧
    extract_headings (("no headings here\nat all").data) = [] :=
  ⟨by decide, c6_parse_total.1 _ _ (by decide), c6_parse_total.2 _ (by decide)⟩

/-- Claim C7, amended. A heading line whose free text is a todo-state token
followed by whitespace and nothing else parses to an empty title with the
token as todo state; when nothing at all follows the token the todo regular
expression does not match (it requires whitespace after the token), the
token is not stripped and the title is the token itself. -/
theorem c7_todo_only_title (line stars g2 tok ws2 : List Char)
    (hm : headingMatch line = some (stars, g2))
    (hg : g2 = tok ++ ws2)
    (htok : tok = ("TODO").data ∨ tok = ("DONE").data ∨ tok = ("IN-PROGRESS").data)
    (hne : ws2 ≠ []) (hall : ∀ c ∈ ws2, pySpace c = true)
    (hnl : ('\n' : Char) ∉ line) :
    extract_headings line = [⟨stars.length, [], line, some tok, []⟩] := by
  have hlne : line ≠ [] := headingMatch_ne_nil line (by rw [hm]; rfl)
  have hts : todoSplit g2 = (some tok, []) := by
    rw [hg]; exact todoSplit_tok_ws tok ws2 htok hne hall
  rw [extract_headings, splitlines_single line hlne hnl]
  simp [extractLoop, hm, hts, closeH, joinNl]

/-- Claim C7, counterexample to the claim as stated: the heading line whose
free text is exactly the token TODO with nothing following parses to the
title TODO, not to the empty title. -/
theorem c7_counterexample :
    extract_headings (("* TODO").data) =
      [⟨1, ("TODO").data, ("* TODO").data, none, []⟩] ∧
    ("TODO").data ≠ ([] : List Char) :=
  ⟨by decide, by decide⟩

/-- Witness for the amended claim C7 at a concrete heading line. -/
theorem c7_todo_only_title_witness :
    headingMatch (("* TODO ").data) = some (("*").data, ("TODO ").data) ∧
    extract_headings (("* TODO ").data) =
      [⟨("*").data.length, [], ("* TODO ").data, some (("TODO").data), []⟩] :=
  ⟨by decide,
    c7_todo_only_title (("* TODO ").data) (("*").data) (("TODO ").data)
      (("TODO").data) ((" ").data) (by decide) (by decide) (Or.inl rfl)
      (by decide) (by decide) (by decide)⟩

/-- Claim C9. Every failure string of read_org_file starts with the words
Error-space-reading, while the guard of read_file_headings tests for the
prefix Error-colon; the guard therefore never triggers on a failing read
and the error message itself is handed to the parser as document text. -/
theorem c9_error_guard (msg : List Char) :
    ("Error:").data.isPrefixOf (read_error_string msg) = false ∧
    read_file_headings (read_error_string msg) =
      Except.ok (extract_headings (read_error_string msg)) := by
  have hp : ("Error:").data.isPrefixOf (read_error_string msg) = false := by
    show ("Error:").data.isPrefixOf (("Error reading file: ").data ++ msg) = false
    have h1 : ("Error reading file: ").data ++ msg =
        'E' :: 'r' :: 'r' :: 'o' :: 'r' :: ' ' :: (("reading file: ").data ++ msg) := rfl
    rw [h1]
    show List.isPrefixOf ('E' :: 'r' :: 'r' :: 'o' :: 'r' :: ':' :: []) _ = false
    simp only [List.isPrefixOf]
    decide
  exact ⟨hp, by simp [read_file_headings, hp]⟩

/-- Claim C5. The extractor's output follows heading order, one heading
contributing its scheduled item (if its content has a scheduled marker,
with the date group of the leftmost match) and then its deadline item (if
its content has a deadline marker): a heading with neither marker yields
zero items and a heading with both yields exactly the two, scheduled
first. -/
theorem c5_extractor (hs : List Heading) :
    itemsLoop hs = hs.flatMap headingItems
    ∧ (∀ h : Heading, searchMarker (("SCHEDULED:").data) h.content = none →
        searchMarker (("DEADLINE:").data) h.content = none → headingItems h = [])
    ∧ (∀ (h : Heading) (ds dd : List Char),
        searchMarker (("SCHEDULED:").data) h.content = some ds →
        searchMarker (("DEADLINE:").data) h.content = some dd →
        headingItems h =
          [⟨("scheduled").data, ds, h.title, h.todo_state, h.level⟩,
            ⟨("deadline").data, dd, h.title, h.todo_state, h.level⟩]) := by
  refine ⟨?_, ?_, ?_⟩
  · induction hs with
    | nil => rfl
    | cons h t ih => rw [itemsLoop, List.flatMap_cons, ih]
  · intro h hS hD
    rw [headingItems, hS, hD]
    rfl
  · intro h ds dd hS hD
    rw [headingItems, hS, hD]
    rfl

/-- Witness for claim C5 at a concrete heading carrying both markers. -/
theorem c5_extractor_witness :
    searchMarker (("SCHEDULED:").data)
      (("SCHEDULED: <2024-01-10 Wed>\nDEADLINE: <2024-01-15>").data) =
      some (("2024-01-10").data) ∧
    searchMarker (("DEADLINE:").data)
      (("SCHEDULED: <2024-01-10 Wed>\nDEADLINE: <2024-01-15>").data) =
      some (("2024-01-15").data) ∧
    headingItems ⟨1, ("t").data, ("* t").data, none,
        ("SCHEDULED: <2024-01-10 Wed>\nDEADLINE: <2024-01-15>").data⟩ =
      [⟨("scheduled").data, ("2024-01-10").data, ("t").data, none, 1⟩,
        ⟨("deadline").data, ("2024-01-15").data, ("t").data, none, 1⟩] :=
  ⟨by decide, by decide,
    (c5_extractor []).2.2
      ⟨1, ("t").data, ("* t").data, none,
        ("SCHEDULED: <2024-01-10 Wed>\nDEADLINE: <2024-01-15>").data⟩
      (("2024-01-10").data) (("2024-01-15").data) (by decide) (by decide)⟩

/-- A found index is within bounds. -/
theorem findLineIdx_lt_length (p : List Char → Bool) (ls : List (List Char)) :
    ∀ i : Nat, findLineIdx p ls = some i → i < ls.length := by
  induction ls with
  | nil => intro i hi; simp [findLineIdx] at hi
  | cons x xs ih =>
    intro i hi
    by_cases hx : p x = true
    · rw [findLineIdx, if_pos hx] at hi
      cases hi
      simp
    · rw [findLineIdx, if_neg hx] at hi
      rcases hmap : findLineIdx p xs with _ | i0
      · rw [hmap] at hi; simp at hi
      · rw [hmap] at hi
        simp only [Option.map_some'] at hi
        cases hi
        have := ih i0 hmap
        simp only [List.length_cons]
        omega

/-- A successful mutation names a parsed target, a block-start index, and
the spliced line list of modify_heading. -/
theorem modify_lines_eq (content t : List Char) (nT nC nTd : Option (List Char))
    (out : List (List Char)) (hmod : modify_heading_lines content t nT nC nTd = some out) :
    ∃ (target : Heading) (bs : Nat),
      find_heading t (extract_headings content) = some target ∧
      findLineIdx (matchesModTitle t) (splitlines content) = some bs ∧
      out = (splitlines content).take bs ++ [buildHeadingLine target nTd nT]
        ++ splitlines (effContent target nC)
        ++ (splitlines content).drop (findBlockEnd (splitlines content) bs) := by
  rw [modify_heading_lines] at hmod
  rcases hf : find_heading t (extract_headings content) with _ | target <;> rw [hf] at hmod
  · simp at hmod
  · simp only at hmod
    rcases hi : findLineIdx (matchesModTitle t) (splitlines content) with _ | bs <;>
      rw [hi] at hmod
    · simp at hmod
    · simp only [Option.some.injEq] at hmod
      exact ⟨target, bs, rfl, rfl, hmod.symm⟩

/-- Claim C2. On every successful mutation the returned line sequence is
the lines before the block start, then the replacement heading line, then
the replacement content lines, then the lines from the block end onward;
in particular every line before the block start and every line from the
block end on is unchanged, at its shifted position, in original order. -/
theorem c2_frame (content t : List Char) (nT nC nTd : Option (List Char))
    (out : List (List Char))
    (hmod : modify_heading_lines content t nT nC nTd = some out) :
    ∃ (target : Heading) (bs : Nat),
      find_heading t (extract_headings content) = some target ∧
      findLineIdx (matchesModTitle t) (splitlines content) = some bs ∧
      out = (splitlines content).take bs ++ [buildHeadingLine target nTd nT]
        ++ splitlines (effContent target nC)
        ++ (splitlines content).drop (findBlockEnd (splitlines content) bs) ∧
      (∀ i : Nat, i < bs → out[i]? = (splitlines content)[i]?) ∧
      (∀ j : Nat,
        out[bs + 1 + (splitlines (effContent target nC)).length + j]? =
          (splitlines content)[findBlockEnd (splitlines content) bs + j]?) := by
  obtain ⟨target, bs, hf, hi, hout⟩ := modify_lines_eq content t nT nC nTd out hmod
  have hbs : bs < (splitlines content).length :=
    findLineIdx_lt_length (matchesModTitle t) (splitlines content) bs hi
  have htake : ((splitlines content).take bs).length = bs := by
    rw [List.length_take]; omega
  refine ⟨target, bs, hf, hi, hout, ?_, ?_⟩
  · intro i hilt
    have h2 : i < ((splitlines content).take bs ++ [buildHeadingLine target nTd nT]).length := by
      rw [List.length_append, htake]; simp; omega
    have h3 : i < ((splitlines content).take bs ++ [buildHeadingLine target nTd nT]
        ++ splitlines (effContent target nC)).length := by
      rw [List.length_append]; omega
    rw [hout, List.getElem?_append_left h3, List.getElem?_append_left h2,
      List.getElem?_append_left
        (show i < ((splitlines content).take bs).length by rw [htake]; exact hilt),
      List.getElem?_take, if_pos hilt]
  · intro j
    have hlenA : ((splitlines content).take bs ++ [buildHeadingLine target nTd nT]
        ++ splitlines (effContent target nC)).length =
        bs + 1 + (splitlines (effContent target nC)).length := by
      simp only [List.length_append, htake, List.length_cons, List.length_nil]
    have hge : ((splitlines content).take bs ++ [buildHeadingLine target nTd nT]
        ++ splitlines (effContent target nC)).length ≤
        bs + 1 + (splitlines (effContent target nC)).length + j := by
      rw [hlenA]; omega
    rw [hout, List.getElem?_append_right hge, hlenA]
    have harith : bs + 1 + (splitlines (effContent target nC)).length + j -
        (bs + 1 + (splitlines (effContent target nC)).length) = j := by omega
    rw [harith, List.getElem?_drop]

/-- Witness for claim C2 at a concrete successful mutation. -/
theorem c2_frame_witness :
    ∃ (target : Heading) (bs : Nat),
      find_heading (("b").data) (extract_headings (("* a\n* b\nold\n* c\ntail").data)) =
        some target ∧
      findLineIdx (matchesModTitle (("b").data))
        (splitlines (("* a\n* b\nold\n* c\ntail").data)) = some bs ∧
      ([("* a").data, ("* b").data, ("new1").data, ("new2").data,
        ("* c").data, ("tail").data] : List (List Char)) =
        (splitlines (("* a\n* b\nold\n* c\ntail").data)).take bs
          ++ [buildHeadingLine target none (none : Option (List Char))]
          ++ splitlines (effContent target (some (("new1\nnew2").data)))
          ++ (splitlines (("* a\n* b\nold\n* c\ntail").data)).drop
            (findBlockEnd (splitlines (("* a\n* b\nold\n* c\ntail").data)) bs) ∧
      (∀ i : Nat, i < bs →
        ([("* a").data, ("* b").data, ("new1").data, ("new2").data,
          ("* c").data, ("tail").data] : List (List Char))[i]? =
          (splitlines (("* a\n* b\nold\n* c\ntail").data))[i]?) ∧
      (∀ j : Nat,
        ([("* a").data, ("* b").data, ("new1").data, ("new2").data,
          ("* c").data, ("tail").data] : List (List Char))[bs + 1 +
            (splitlines (effContent target (some (("new1\nnew2").data)))).length + j]? =
          (splitlines (("* a\n* b\nold\n* c\ntail").data))[findBlockEnd
            (splitlines (("* a\n* b\nold\n* c\ntail").data)) bs + j]?) :=
  c2_frame (("* a\n* b\nold\n* c\ntail").data) (("b").data)
    none (some (("new1\nnew2").data)) none
    [("* a").data, ("* b").data, ("new1").data, ("new2").data,
      ("* c").data, ("tail").data] (by decide)

/-- Claim C8, amended. On every successful mutation, the replacement
heading line is exactly: the preserved level's marker run and a space,
then — only when an effective todo-state exists, that is, the override
value when one was given and otherwise the target heading's original
parsed todo-state — the nonempty token followed by a single space, then
the effective title (the override title when given, else the originally
matched title). In particular, with no todo-state override the original
todo-state token is kept, not dropped. -/
theorem c8_heading_line (content t : List Char) (nT nC nTd : Option (List Char))
    (out : List (List Char))
    (hmod : modify_heading_lines content t nT nC nTd = some out) :
    ∃ (target : Heading) (bs : Nat),
      find_heading t (extract_headings content) = some target ∧
      findLineIdx (matchesModTitle t) (splitlines content) = some bs ∧
      out[bs]? = some (starsOf target.level ++ ' ' ::
        ((nTd.or target.todo_state).elim ([] : List Char)
          (fun tok => if tok = [] then [] else tok ++ [' ']) ++
          nT.getD target.title)) := by
  obtain ⟨target, bs, hf, hi, hout⟩ := modify_lines_eq content t nT nC nTd out hmod
  have hbs : bs < (splitlines content).length :=
    findLineIdx_lt_length (matchesModTitle t) (splitlines content) bs hi
  have htake : ((splitlines content).take bs).length = bs := by
    rw [List.length_take]; omega
  refine ⟨target, bs, hf, hi, ?_⟩
  have h3 : bs < ((splitlines content).take bs ++ [buildHeadingLine target nTd nT]
      ++ splitlines (effContent target nC)).length := by
    rw [List.length_append, List.length_append, htake]
    simp only [List.length_cons, List.length_nil]
    omega
  have h2ge : ((splitlines content).take bs).length ≤ bs := by rw [htake]
  rw [hout, List.getElem?_append_left h3,
    List.getElem?_append_left (by rw [List.length_append, htake]; simp),
    List.getElem?_append_right h2ge, htake, Nat.sub_self]
  have hb : buildHeadingLine target nTd nT = starsOf target.level ++ ' ' ::
      ((nTd.or target.todo_state).elim ([] : List Char)
        (fun tok => if tok = [] then [] else tok ++ [' ']) ++
        nT.getD target.title) := by
    cases nTd with
    | some s => cases nT <;> rfl
    | none =>
      rcases htd : target.todo_state with _ | s <;>
        cases nT <;>
          simp [buildHeadingLine, htd, Option.or, Option.elim, Option.getD]
  rw [hb]
  rfl

/-- Claim C8, counterexample to the claim as stated: with no todo-state
override on a target whose original state is TODO, the replacement line
keeps the TODO token, while the claim predicts a line with no token. -/
theorem c8_counterexample :
    modify_heading_lines (("* TODO x").data) (("x").data) none none none =
      some [("* TODO x").data] ∧
    ("* TODO x").data ≠ ("* x").data :=
  ⟨by decide, by decide⟩

/-- Witness for the amended claim C8 at a concrete successful mutation. -/
theorem c8_heading_line_witness :
    ∃ (target : Heading) (bs : Nat),
      find_heading (("x").data) (extract_headings (("* TODO x").data)) = some target ∧
      findLineIdx (matchesModTitle (("x").data)) (splitlines (("* TODO x").data)) =
        some bs ∧
      ([("* TODO x").data] : List (List Char))[bs]? =
        some (starsOf target.level ++ ' ' ::
          (((none : Option (List Char)).or target.todo_state).elim ([] : List Char)
            (fun tok => if tok = [] then [] else tok ++ [' ']) ++
            (none : Option (List Char)).getD target.title)) :=
  c8_heading_line (("* TODO x").data) (("x").data) none none none
    [("* TODO x").data] (by decide)

/-- Cancel matching separator-free heads across one separator. -/
theorem nl_append_inj (a : List Char) :
    ∀ (b X Y : List Char), ('\n' : Char) ∉ a → ('\n' : Char) ∉ b →
    a ++ '\n' :: X = b ++ '\n' :: Y → a = b ∧ X = Y := by
  induction a with
  | nil =>
    intro b X Y _ hb heq
    cases b with
    | nil => simpa using heq
    | cons d b' =>
      simp only [List.nil_append, List.cons_append, List.cons.injEq] at heq
      exact absurd (heq.1 ▸ List.mem_cons_self d b') hb
  | cons c a' ih =>
    intro b X Y ha hb heq
    cases b with
    | nil =>
      simp only [List.cons_append, List.nil_append, List.cons.injEq] at heq
      exact absurd (heq.1 ▸ List.mem_cons_self c a') ha
    | cons d b' =>
      simp only [List.cons_append, List.cons.injEq] at heq
      obtain ⟨h1, h2⟩ := ih b' X Y
        (fun hm => ha (List.mem_cons_of_mem c hm))
        (fun hm => hb (List.mem_cons_of_mem d hm)) heq.2
      exact ⟨by rw [heq.1, h1], h2⟩

/-- The newline-join is injective on nonempty lists of separator-free
pieces. -/
theorem joinNl_inj (A : List (List Char)) :
    ∀ (B : List (List Char)), A ≠ [] → B ≠ [] → NlFree A → NlFree B →
    joinNl A = joinNl B → A = B := by
  induction A with
  | nil => intro B hA; exact absurd rfl hA
  | cons a A' ih =>
    intro B hA hB nA nB heq
    cases B with
    | nil => exact absurd rfl hB
    | cons b B' =>
      cases A' with
      | nil =>
        cases B' with
        | nil => simpa [joinNl] using heq
        | cons b2 Bt =>
          rw [joinNl, joinNl_cons b (b2 :: Bt) (List.cons_ne_nil b2 Bt)] at heq
          have : ('\n' : Char) ∈ a := by
            rw [heq]
            exact List.mem_append_right b (List.mem_cons_self '\n' _)
          exact absurd this (nA a (List.mem_cons_self a []))
      | cons a2 At =>
        cases B' with
        | nil =>
          rw [joinNl_cons a (a2 :: At) (List.cons_ne_nil a2 At), joinNl] at heq
          have : ('\n' : Char) ∈ b := by
            rw [← heq]
            exact List.mem_append_right a (List.mem_cons_self '\n' _)
          exact absurd this (nB b (List.mem_cons_self b []))
        | cons b2 Bt =>
          rw [joinNl_cons a (a2 :: At) (List.cons_ne_nil a2 At),
            joinNl_cons b (b2 :: Bt) (List.cons_ne_nil b2 Bt)] at heq
          obtain ⟨h1, h2⟩ := nl_append_inj a b (joinNl (a2 :: At)) (joinNl (b2 :: Bt))
            (nA a (List.mem_cons_self a _)) (nB b (List.mem_cons_self b _)) heq
          have h3 := ih (b2 :: Bt) (List.cons_ne_nil a2 At) (List.cons_ne_nil b2 Bt)
            (fun l hl => nA l (List.mem_cons_of_mem a hl))
            (fun l hl => nB l (List.mem_cons_of_mem b hl)) h2
          rw [h1, h3]

/-- A list equal to its own tail with one element appended is constant. -/
theorem cons_eq_tail_append (x : List Char) :
    ∀ (a : List Char) (t : List (List Char)), a :: t = t ++ [x] →
      ∀ y ∈ a :: t, y = x := by
  intro a t
  induction t generalizing a with
  | nil =>
    intro heq y hy
    simp only [List.nil_append, List.cons.injEq] at heq
    simp only [List.mem_singleton] at hy
    rw [hy, heq.1]
  | cons b t' ih =>
    intro heq y hy
    simp only [List.cons_append, List.cons.injEq] at heq
    have hall := ih b heq.2
    rcases List.mem_cons.mp hy with h1 | h1
    · rw [h1, heq.1]
      exact hall b (List.mem_cons_self b t')
    · exact hall y h1

/-- The forcing core of the trailing-separator argument: a spliced list
one longer than the replaced span, equal to the original with an extra
empty piece appended, forces the first suffix line to be empty. -/
theorem spliced_suffix_empty (K mid : List (List Char)) (lb : List Char)
    (rest : List (List Char)) (hK : K.length = mid.length + 1)
    (heq : K ++ (lb :: rest) = mid ++ ((lb :: rest) ++ [[]])) : lb = [] := by
  have hdrop := congrArg (List.drop (mid.length + 1)) heq
  rw [← hK, List.drop_left, hK, ← List.drop_drop, List.drop_left] at hdrop
  simp only [List.cons_append, List.drop_succ_cons, List.drop_zero] at hdrop
  exact cons_eq_tail_append [] lb rest hdrop lb (List.mem_cons_self lb rest)

/-- A full split never yields the empty list of pieces. -/
theorem splitNl_ne_nil (x : List Char) : splitNl x ≠ [] := by
  cases x with
  | nil => simp [splitNl]
  | cons c t =>
    rw [splitNl]
    by_cases hc : c = '\n'
    · simp [hc]
    · simp only [if_neg hc]
      cases splitNl t <;> simp

/-- The full split is an exact inverse of the newline join. -/
theorem joinNl_splitNl (x : List Char) : joinNl (splitNl x) = x := by
  induction x with
  | nil => rfl
  | cons c t ih =>
    by_cases hc : c = '\n'
    · rw [splitNl, if_pos hc, joinNl_cons [] (splitNl t) (splitNl_ne_nil t), ih]
      simp [hc]
    · rw [splitNl, if_neg hc]
      rcases hsp : splitNl t with _ | ⟨l, ls⟩
      · exact absurd hsp (splitNl_ne_nil t)
      · have hj : joinNl (l :: ls) = t := by rw [← hsp]; exact ih
        cases ls with
        | nil =>
          rw [joinNl] at hj
          rw [joinNl, hj]
        | cons l1 ls1 =>
          rw [joinNl_cons (c :: l) (l1 :: ls1) (List.cons_ne_nil l1 ls1)]
          rw [joinNl_cons l (l1 :: ls1) (List.cons_ne_nil l1 ls1)] at hj
          simp only [List.cons_append]
          rw [hj]

/-- Pieces of a full split carry no separator. -/
theorem splitNl_nlFree (x : List Char) : NlFree (splitNl x) := by
  induction x with
  | nil =>
    intro l hl
    simp only [splitNl, List.mem_singleton] at hl
    subst hl
    simp
  | cons c t ih =>
    intro l hl
    by_cases hc : c = '\n'
    · rw [splitNl, if_pos hc] at hl
      rcases List.mem_cons.mp hl with h1 | h1
      · subst h1; simp
      · exact ih l h1
    · rcases hsp : splitNl t with _ | ⟨l0, ls0⟩
      · exact absurd hsp (splitNl_ne_nil t)
      · rw [splitNl, if_neg hc, hsp] at hl
        rcases List.mem_cons.mp hl with h1 | h1
        · subst h1
          intro hmem
          rcases List.mem_cons.mp hmem with h2 | h2
          · exact hc h2.symm
          · exact ih l0 (by rw [hsp]; exact List.mem_cons_self l0 ls0) h2
        · exact ih l (by rw [hsp]; exact List.mem_cons_of_mem l0 h1)

/-- Replacing one piece of a join by any piece list with the same join
leaves the joined text unchanged. -/
theorem joinNl_replace (A B C : List (List Char)) (x : List Char)
    (hC : C ≠ []) (hjC : joinNl C = x) (hB : B ≠ []) :
    joinNl (A ++ ([x] ++ B)) = joinNl (A ++ (C ++ B)) := by
  have hCB : C ++ B ≠ [] := fun h0 => hC (List.append_eq_nil.mp h0).1
  have hxB : [x] ++ B ≠ [] := by simp
  cases A with
  | nil =>
    simp only [List.nil_append]
    rw [List.singleton_append, joinNl_cons x B hB, joinNl_append C B hC hB, hjC]
  | cons a A2 =>
    rw [joinNl_append (a :: A2) ([x] ++ B) (List.cons_ne_nil a A2) hxB,
      joinNl_append (a :: A2) (C ++ B) (List.cons_ne_nil a A2) hCB,
      List.singleton_append, joinNl_cons x B hB, joinNl_append C B hC hB, hjC]

/-- When the block end is inside the document it is a heading line strictly
after the block start. -/
theorem findBlockEnd_boundary (lines : List (List Char)) (bs : Nat)
    (h : findBlockEnd lines bs < lines.length) :
    ∃ lb, lines[findBlockEnd lines bs]? = some lb ∧ (headingMatch lb).isSome = true ∧
      bs + 1 ≤ findBlockEnd lines bs := by
  rcases hj : findLineIdx (fun l => (headingMatch l).isSome) (lines.drop (bs + 1))
    with _ | j
  · rw [findBlockEnd, hj] at h
    exact absurd h (lt_irrefl _)
  · obtain ⟨lb, hlb, hp, _⟩ := (findLineIdx_spec (fun l => (headingMatch l).isSome)
      (lines.drop (bs + 1))).1 j hj
    refine ⟨lb, ?_, hp, ?_⟩
    · rw [findBlockEnd, hj, ← List.getElem?_drop]
      exact hlb
    · rw [findBlockEnd, hj]
      show bs + 1 ≤ bs + 1 + j
      omega

/-- Claim C10, amended. The mutator serializes by joining the new lines
with single newlines and no terminating separator. For every document
ending with a line separator, on a successful mutation whose replaced
block is followed by a further heading line, the written output is not
byte-identical to the original: the final separator is dropped. (When the
replaced block is the last block, re-splitting the replacement content can
reinsert the dropped separator and reproduce the document exactly, as the
counterexample shows.) -/
theorem c10_trailing_separator (content t : List Char) (nT nC nTd : Option (List Char))
    (out : List Char)
    (hmod : modify_heading content t nT nC nTd = some out)
    (hnl : lastChar? content = some '\n')
    (hbe : ∀ bs, findLineIdx (matchesModTitle t) (splitlines content) = some bs →
      findBlockEnd (splitlines content) bs < (splitlines content).length) :
    out ≠ content := by
  intro heq
  rw [modify_heading] at hmod
  obtain ⟨nl, hmodl, hout⟩ := Option.map_eq_some'.mp hmod
  obtain ⟨target, bs, hf, hi, hnl_eq⟩ := modify_lines_eq content t nT nC nTd nl hmodl
  have hbe' := hbe bs hi
  have hbs : bs < (splitlines content).length :=
    findLineIdx_lt_length (matchesModTitle t) (splitlines content) bs hi
  obtain ⟨lb, hlb, hlbp, hbe_ge⟩ := findBlockEnd_boundary (splitlines content) bs hbe'
  obtain ⟨hlt, helem⟩ := List.getElem?_eq_some.mp hlb
  have hdropbe : (splitlines content).drop (findBlockEnd (splitlines content) bs) =
      lb :: (splitlines content).drop (findBlockEnd (splitlines content) bs + 1) := by
    rw [List.drop_eq_getElem_cons hlt]
    have hX : (splitlines content)[findBlockEnd (splitlines content) bs] = lb := helem
    rw [hX]
  have hsufne : splitlines (effContent target nC) ++
      (splitlines content).drop (findBlockEnd (splitlines content) bs) ≠ [] := by
    rw [hdropbe]
    simp
  have hflat : joinNl nl =
      joinNl ((splitlines content).take bs ++
        (splitNl (buildHeadingLine target nTd nT) ++
          (splitlines (effContent target nC) ++
            (splitlines content).drop (findBlockEnd (splitlines content) bs)))) := by
    rw [hnl_eq]
    rw [show ((splitlines content).take bs ++ [buildHeadingLine target nTd nT] ++
        splitlines (effContent target nC) ++
        (splitlines content).drop (findBlockEnd (splitlines content) bs)) =
      ((splitlines content).take bs ++ ([buildHeadingLine target nTd nT] ++
        (splitlines (effContent target nC) ++
          (splitlines content).drop (findBlockEnd (splitlines content) bs)))) from by
      simp [List.append_assoc]]
    exact joinNl_replace ((splitlines content).take bs)
      (splitlines (effContent target nC) ++
        (splitlines content).drop (findBlockEnd (splitlines content) bs))
      (splitNl (buildHeadingLine target nTd nT)) (buildHeadingLine target nTd nT)
      (splitNl_ne_nil _) (joinNl_splitNl _) hsufne
  have hNA : NlFree ((splitlines content).take bs ++
      (splitNl (buildHeadingLine target nTd nT) ++
        (splitlines (effContent target nC) ++
          (splitlines content).drop (findBlockEnd (splitlines content) bs)))) := by
    intro l hl
    rcases List.mem_append.mp hl with h1 | h1
    · exact splitlines_nlFree content l (List.mem_of_mem_take h1)
    · rcases List.mem_append.mp h1 with h2 | h2
      · exact splitNl_nlFree (buildHeadingLine target nTd nT) l h2
      · rcases List.mem_append.mp h2 with h3 | h3
        · exact splitlines_nlFree (effContent target nC) l h3
        · exact splitlines_nlFree content l (List.mem_of_mem_drop h3)
  have hlines_ne : splitlines content ≠ [] := by
    intro h0
    rw [h0] at hbs
    simp at hbs
  have hcontent := splitlines_of_last_nl content hnl
  have hjr : joinNl (splitlines content ++ [[]]) = joinNl (splitlines content) ++ ['\n'] := by
    rw [joinNl_append (splitlines content) [[]] hlines_ne (by simp)]
    rfl
  have hjoins : joinNl ((splitlines content).take bs ++
      (splitNl (buildHeadingLine target nTd nT) ++
        (splitlines (effContent target nC) ++
          (splitlines content).drop (findBlockEnd (splitlines content) bs)))) =
      joinNl (splitlines content ++ [[]]) := by
    rw [← hflat, hjr, ← hcontent, hout, heq]
  have hNB : NlFree (splitlines content ++ [[]]) := by
    intro l hl
    rcases List.mem_append.mp hl with h1 | h1
    · exact splitlines_nlFree content l h1
    · rw [List.mem_singleton] at h1
      subst h1
      simp
  have hnl_ne2 : (splitlines content).take bs ++
      (splitNl (buildHeadingLine target nTd nT) ++
        (splitlines (effContent target nC) ++
          (splitlines content).drop (findBlockEnd (splitlines content) bs))) ≠ [] := by
    rw [hdropbe]
    simp
  have hlist := joinNl_inj _ _ hnl_ne2 (by simp) hNA hNB hjoins
  have hdd : ((splitlines content).drop bs).drop (findBlockEnd (splitlines content) bs - bs) =
      (splitlines content).drop (findBlockEnd (splitlines content) bs) := by
    rw [List.drop_drop]
    congr 1
    omega
  have hsplit2 : (splitlines content).drop bs =
      ((splitlines content).drop bs).take (findBlockEnd (splitlines content) bs - bs) ++
        (splitlines content).drop (findBlockEnd (splitlines content) bs) := by
    conv_lhs => rw [← List.take_append_drop (findBlockEnd (splitlines content) bs - bs)
      ((splitlines content).drop bs)]
    rw [hdd]
  have hlines_decomp : splitlines content ++ [[]] =
      (splitlines content).take bs ++
        (((splitlines content).drop bs).take (findBlockEnd (splitlines content) bs - bs) ++
          ((splitlines content).drop (findBlockEnd (splitlines content) bs) ++ [[]])) := by
    conv_lhs => rw [← List.take_append_drop bs (splitlines content), hsplit2]
    simp [List.append_assoc]
  rw [hlines_decomp] at hlist
  have E2 := List.append_cancel_left hlist
  have hlenE := congrArg List.length E2
  simp only [List.length_append, List.length_cons, List.length_nil] at hlenE
  have hK : (splitNl (buildHeadingLine target nTd nT) ++
      splitlines (effContent target nC)).length =
      (((splitlines content).drop bs).take
        (findBlockEnd (splitlines content) bs - bs)).length + 1 := by
    simp only [List.length_append]
    omega
  rw [hdropbe] at E2
  have E3 : (splitNl (buildHeadingLine target nTd nT) ++
      splitlines (effContent target nC)) ++
      (lb :: (splitlines content).drop (findBlockEnd (splitlines content) bs + 1)) =
      ((splitlines content).drop bs).take (findBlockEnd (splitlines content) bs - bs) ++
        ((lb :: (splitlines content).drop (findBlockEnd (splitlines content) bs + 1)) ++
          [[]]) := by
    rw [List.append_assoc]
    exact E2
  have hlbnil := spliced_suffix_empty
    (splitNl (buildHeadingLine target nTd nT) ++ splitlines (effContent target nC))
    (((splitlines content).drop bs).take (findBlockEnd (splitlines content) bs - bs))
    lb ((splitlines content).drop (findBlockEnd (splitlines content) bs + 1)) hK E3
  rw [hlbnil] at hlbp
  simp [headingMatch] at hlbp

/-- Claim C10, counterexample to the claim as stated: this document ends
with a separator, yet the successful no-override mutation writes back the
document byte-for-byte — the replaced block is last, its stored content
ends with a separator, and re-splitting it restores the dropped line. -/
theorem c10_counterexample :
    modify_heading (("* TODO\tx\n\n\n* TODO x\n").data) (("x").data) none none none =
      some (("* TODO\tx\n\n\n* TODO x\n").data) ∧
    lastChar? (("* TODO\tx\n\n\n* TODO x\n").data) = some '\n' :=
  ⟨by decide, by decide⟩

/-- Witness for the amended claim C10 at a concrete mutation whose block is
followed by another heading. -/
theorem c10_trailing_separator_witness :
    modify_heading (("* a\nx\n* b\n").data) (("a").data) none none none =
      some (("* a\nx\n* b").data) ∧
    lastChar? (("* a\nx\n* b\n").data) = some '\n' ∧
    (("* a\nx\n* b").data) ≠ (("* a\nx\n* b\n").data) :=
  ⟨by decide, by decide,
    c10_trailing_separator (("* a\nx\n* b\n").data) (("a").data) none none none
      (("* a\nx\n* b").data) (by decide) (by decide)
      (by
        intro bs hbs
        have hc : findLineIdx (matchesModTitle (("a").data))
            (splitlines (("* a\nx\n* b\n").data)) = some 0 := by decide
        rw [hc] at hbs
        cases hbs
        decide)⟩
